import Mathlib

/-!
Verification of the `ipfshttpclient.client` package (py-ipfs-api).

The definitions below are a shallow embedding of
`src/ipfshttpclient/client/__init__.py`.  Pure Python functions become Lean
functions; Python exceptions become explicit result constructors; the parts of
the repository that live outside the given source file (the low-level HTTP
client with its session handling, the JSON codec, the daemon itself) are
modelled from the specification and marked as such in their doc comments.
-/

namespace IpfsHttpClient

/-! ## Python primitives used by `assert_version` -/

/-- The whitespace characters in the ASCII range that Python `int()` strips
from both ends of its argument: tab through carriage return (`\x09`–`\x0d`),
the file/group/record/unit separators (`\x1c`–`\x1f`), and space. -/
def pyWs (c : Char) : Bool :=
  (9 ≤ c.toNat && c.toNat ≤ 13) || (28 ≤ c.toNat && c.toNat ≤ 32)

/-- Strip leading and trailing `int()` whitespace. -/
def stripWs (cs : List Char) : List Char :=
  ((cs.dropWhile pyWs).reverse.dropWhile pyWs).reverse

/-- The continuation of a digit run in Python's integer-literal grammar:
decimal digits with at most one underscore between two digits (`"1_2_3"` is
accepted, `"1__2"`, `"_1"` and `"1_"` are not).  The flag records whether the
previous character was an underscore, which must be followed by a digit. -/
def pyDigitsAux : Bool → List Char → Bool
  | false, [] => true
  | true, [] => false
  | seenUnd, c :: cs =>
    if c = '_' then
      if seenUnd then false else pyDigitsAux true cs
    else
      c.isDigit && pyDigitsAux false cs

/-- Embedding of Python `int(s)` on strings in the ASCII range: strip the
whitespace `int()` strips, accept one optional sign followed by a non-empty
run of decimal digits with single underscores between digits, and return
`none` (Python's `ValueError`) on everything else.  Characters outside ASCII
that Python `int()` also accepts — Unicode decimal digits and non-ASCII
whitespace — are not modelled, so theorems that conclude a `ValueError` from
a failed parse are stated for ASCII strings only; on acceptance the model is
sound everywhere it returns a value. -/
def pyInt (cs : List Char) : Option Int :=
  let t := stripWs cs
  let neg := t.head? = some '-'
  let body := if neg || t.head? = some '+' then t.tail else t
  match body with
  | [] => none
  | c :: rest =>
    if c.isDigit && pyDigitsAux false rest then
      let n : Nat := (body.filter (fun x => x ≠ '_')).foldl
        (fun a x => 10 * a + (x.toNat - 48)) 0
      some (if neg then -(n : Int) else (n : Int))
    else
      none

/-- Embedding of `s.split('-', 1)[0]`: everything before the first `'-'`
(the whole string when there is no `'-'`). -/
def beforeDash : List Char → List Char
  | [] => []
  | c :: cs => if c = '-' then [] else c :: beforeDash cs

/-- Embedding of Python `str.split('.')`: split at every `'.'`, keeping empty
pieces (so `"".split('.') == ['']`). -/
def splitOnDot : List Char → List (List Char)
  | [] => [[]]
  | c :: cs =>
    if c = '.' then [] :: splitOnDot cs
    else
      match splitOnDot cs with
      | [] => [[c]]
      | g :: gs => (c :: g) :: gs

/-- Embedding of `list(map(int, s.split('-', 1)[0].split('.')))`:
the dotted numeric version tuple of the part before the first dash.
`none` where Python would raise `ValueError` from `int`. -/
def parseVersion (s : String) : Option (List Int) :=
  (splitOnDot (beforeDash s.data)).mapM pyInt

/-- Python `list.__lt__` on integer lists: lexicographic comparison in which a
proper prefix is strictly smaller. -/
def pyListLt : List Int → List Int → Bool
  | [], [] => false
  | [], _ :: _ => true
  | _ :: _, [] => false
  | a :: as, b :: bs => if a < b then true else if b < a then false else pyListLt as bs

/-! ## The version gate -/

/-- Outcome of a call to `assert_version`: normal return, the typed
`VersionMismatch` exception (carrying the parsed tuples, as the Python
constructor receives them), or an untyped `ValueError` escaping `int()`. -/
inductive AVResult where
  | ok : AVResult
  | versionMismatch (version minimum maximum : List Int) : AVResult
  | valueError : AVResult
deriving DecidableEq, Repr

/-- Module constant `VERSION_MINIMUM = "0.4.21"`. -/
def VERSION_MINIMUM : String := "0.4.21"

/-- Module constant `VERSION_MAXIMUM = "0.6.0"`. -/
def VERSION_MAXIMUM : String := "0.6.0"

/-- Module constant `VERSION_BLACKLIST = []`. -/
def VERSION_BLACKLIST : List String := []

/-- The `for blacklisted in blacklist:` loop at the end of `assert_version`:
each entry is parsed (a parse failure raises `ValueError` at that point) and
compared for list equality with the parsed version. -/
def checkBlacklist (version minimum maximum : List Int) : List String → AVResult
  | [] => .ok
  | b :: bs =>
    match parseVersion b with
    | none => .valueError
    | some blacklisted =>
      if version = blacklisted then .versionMismatch version minimum maximum
      else checkBlacklist version minimum maximum bs

/-- Embedding of `assert_version(version, minimum, maximum, blacklist)`.
The three version strings are converted to integer tuples in source order
(so the first unparseable one determines where `ValueError` is raised), the
range check `minimum > version or version >= maximum` runs next, and the
blacklist loop last. -/
def assert_version (version : String) (minimum : String := VERSION_MINIMUM)
    (maximum : String := VERSION_MAXIMUM)
    (blacklist : List String := VERSION_BLACKLIST) : AVResult :=
  match parseVersion version with
  | none => .valueError
  | some v =>
    match parseVersion minimum with
    | none => .valueError
    | some mn =>
      match parseVersion maximum with
      | none => .valueError
      | some mx =>
        if pyListLt v mn || !pyListLt v mx then .versionMismatch v mn mx
        else checkBlacklist v mn mx blacklist

/-! ## Helper lemmas about the version gate -/

/-- `parseVersion` looks only at the part of the string before the first
dash. -/
theorem parseVersion_congr {s t : String}
    (h : beforeDash s.data = beforeDash t.data) :
    parseVersion s = parseVersion t := by
  unfold parseVersion
  rw [h]

/-- `checkBlacklist` only depends on the numeric prefixes of the blacklist
entries. -/
theorem checkBlacklist_congr (v mn mx : List Int) {bl₁ bl₂ : List String}
    (h : List.Forall₂ (fun a b => beforeDash a.data = beforeDash b.data) bl₁ bl₂) :
    checkBlacklist v mn mx bl₁ = checkBlacklist v mn mx bl₂ := by
  induction h with
  | nil => rfl
  | cons hab _ ih =>
    simp only [checkBlacklist, parseVersion_congr hab, ih]

/-- C3: the outcome of `assert_version` depends only on the parts of its
string arguments before the first dash.  Replacing the version, minimum,
maximum, or any blacklist entry by a string with the same numeric prefix but
a different suffix (such as `"0.5.0"` versus `"0.5.0-rc1"`) leaves the
outcome unchanged. -/
theorem assert_version_suffix_independent
    (version₁ version₂ minimum₁ minimum₂ maximum₁ maximum₂ : String)
    (blacklist₁ blacklist₂ : List String)
    (hv : beforeDash version₁.data = beforeDash version₂.data)
    (hmn : beforeDash minimum₁.data = beforeDash minimum₂.data)
    (hmx : beforeDash maximum₁.data = beforeDash maximum₂.data)
    (hbl : List.Forall₂ (fun a b => beforeDash a.data = beforeDash b.data)
      blacklist₁ blacklist₂) :
    assert_version version₁ minimum₁ maximum₁ blacklist₁ =
      assert_version version₂ minimum₂ maximum₂ blacklist₂ := by
  unfold assert_version
  rw [parseVersion_congr hv, parseVersion_congr hmn, parseVersion_congr hmx]
  cases parseVersion version₂ with
  | none => rfl
  | some v =>
    cases parseVersion minimum₂ with
    | none => rfl
    | some mn =>
      cases parseVersion maximum₂ with
      | none => rfl
      | some mx =>
        simp only [checkBlacklist_congr v mn mx hbl]

/-- Witness for `assert_version_suffix_independent`:
`"0.5.0"` and `"0.5.0-rc1"` get the same verdict. -/
theorem assert_version_suffix_independent_witness :
    assert_version "0.5.0" "0.4.21" "0.6.0-dev" ["0.4.23-rc4"] =
      assert_version "0.5.0-rc1" "0.4.21-x" "0.6.0" ["0.4.23"] :=
  assert_version_suffix_independent "0.5.0" "0.5.0-rc1" "0.4.21" "0.4.21-x"
    "0.6.0-dev" "0.6.0" ["0.4.23-rc4"] ["0.4.23"]
    (by rfl) (by rfl) (by rfl) (List.Forall₂.cons (by rfl) List.Forall₂.nil)

/-- C10: version tuples of different lengths are compared lexicographically
with a proper prefix strictly smaller, so `"0.6"` is accepted under maximum
`"0.6.0"` (`[0, 6] < [0, 6, 0]`) even though `"0.6.0"` itself is rejected. -/
theorem assert_version_proper_prefix :
    assert_version "0.6" = .ok ∧
    assert_version "0.6.0" = .versionMismatch [0, 6, 0] [0, 4, 21] [0, 6, 0] ∧
    (∀ (l m : List Int), m ≠ [] → pyListLt l (l ++ m) = true) := by
  refine ⟨by rfl, by rfl, ?_⟩
  intro l m hm
  induction l with
  | nil =>
    cases m with
    | nil => exact absurd rfl hm
    | cons c cs => rfl
  | cons a as ih =>
    simp [pyListLt, ih]

/-- Witness for `assert_version_proper_prefix` at a concrete input. -/
theorem assert_version_proper_prefix_witness :
    pyListLt [0, 6] ([0, 6] ++ [0]) = true :=
  assert_version_proper_prefix.2.2 [0, 6] [0] (by simp)

/-- C8: `assert_version` is a total, deterministic function of its four
arguments: every call terminates in exactly one of the three outcomes (normal
return, `VersionMismatch`, `ValueError`), and equal arguments always produce
equal outcomes — the embedding carries no state for the function to read or
modify, matching the absence of any attribute or global write in its body. -/
theorem assert_version_pure
    (version minimum maximum : String) (blacklist : List String) :
    (assert_version version minimum maximum blacklist = .ok ∨
      (∃ v mn mx, assert_version version minimum maximum blacklist =
        .versionMismatch v mn mx) ∨
      assert_version version minimum maximum blacklist = .valueError) ∧
    (∀ version' minimum' maximum' blacklist',
      version = version' → minimum = minimum' → maximum = maximum' →
      blacklist = blacklist' →
      assert_version version minimum maximum blacklist =
        assert_version version' minimum' maximum' blacklist') := by
  constructor
  · cases h : assert_version version minimum maximum blacklist with
    | ok => exact Or.inl rfl
    | versionMismatch v mn mx => exact Or.inr (Or.inl ⟨v, mn, mx, rfl⟩)
    | valueError => exact Or.inr (Or.inr rfl)
  · intro version' minimum' maximum' blacklist' h1 h2 h3 h4
    subst h1; subst h2; subst h3; subst h4
    rfl

/-- Witness for `assert_version_pure` at a concrete input. -/
theorem assert_version_pure_witness :
    assert_version "0.5.0" "0.4.21" "0.6.0" [] =
      assert_version "0.5.0" "0.4.21" "0.6.0" [] :=
  (assert_version_pure "0.5.0" "0.4.21" "0.6.0" []).2
    "0.5.0" "0.4.21" "0.6.0" [] rfl rfl rfl rfl

/-! ## Client state and session management

`Client.__enter__`, `__exit__` and `close` delegate to the low-level HTTP
client object `self._client`, whose class lives outside the given source
file; its session state is modelled from the spec. -/

/-- Modelled from the spec: the state of the low-level HTTP client owned by a
`Client` — "Session: a pooled-connection handle shared by all calls made
while open; owned exclusively by one Client; released on close", with the
invariant "at most one session is open per Client at a time". -/
structure HTTPClientState where
  sessionOpen : Bool
deriving DecidableEq, Repr

/-- Modelled from the spec: `open_session` — "entering a session context
opens a pooled connection". -/
def open_session (s : HTTPClientState) : HTTPClientState :=
  { s with sessionOpen := true }

/-- Modelled from the spec: `close_session` — releases the pooled connection;
"closing when none is open is a no-op". -/
def close_session (s : HTTPClientState) : HTTPClientState :=
  { s with sessionOpen := false }

/-- The `Client` object: its low-level HTTP client `self._client` and the
`self._workarounds` set that `connect` may extend.  The constructor arguments
(address, base path, chunk size, defaults) do not influence any claim and are
omitted. -/
structure Client where
  httpClient : HTTPClientState
  workarounds : List String
deriving DecidableEq, Repr

/-- Embedding of `Client.__enter__`: `self._client.open_session()` then
`return self`. -/
def Client.enter (c : Client) : Client :=
  { c with httpClient := open_session c.httpClient }

/-- Embedding of `Client.close`: `self._client.close_session()`. -/
def Client.close (c : Client) : Client :=
  { c with httpClient := close_session c.httpClient }

/-- Embedding of `Client.__exit__(self, exc_type, exc_value, traceback)`:
`self.close()` unconditionally, ignoring all three exception arguments. -/
def Client.exit (c : Client) (_exc_type _exc_value _traceback : Option String) :
    Client :=
  c.close

/-- Modelled from the spec: scoped acquisition with a `with client:` block —
`__enter__` runs first, the body runs on the opened client and either
succeeds or raises, and `__exit__` runs on every exit path with `exc_type =
None` on normal exit and the exception's type otherwise. -/
def withClient {ε α : Type} (c : Client) (body : Client → Except ε α) :
    Except ε α × Client :=
  let opened := c.enter
  match body opened with
  | .ok a => (.ok a, opened.exit none none none)
  | .error e => (.error e, opened.exit (some "exception") none none)

/-- A session-management step: `__enter__` or `close`. -/
inductive SessionOp where
  | enter : SessionOp
  | close : SessionOp
deriving DecidableEq, Repr

/-- Run one session-management operation on a client. -/
def Client.applyOp (c : Client) : SessionOp → Client
  | .enter => c.enter
  | .close => c.close

/-- Number of sessions a client holds open (0 or 1 by construction of the
state). -/
def Client.openSessionCount (c : Client) : Nat :=
  if c.httpClient.sessionOpen then 1 else 0

/-! ## `connect` -/

/-- Embedding of `connect(...)`: construct the `Client` (with a session
already open iff `session=True` was passed), query the daemon's version
string, run `assert_version` on it with the module defaults, add the
`use_http_head_for_no_result` workaround for daemons older than `(0, 5)`,
and only then return the client.  The daemon interaction is modelled from
the spec by passing the version string the daemon reports; a failing gate
propagates as `Except.error`. -/
def connect (daemonVersion : String) (session : Bool := false) :
    Except AVResult Client :=
  let client : Client := { httpClient := { sessionOpen := session }, workarounds := [] }
  match assert_version daemonVersion with
  | .ok =>
    match parseVersion daemonVersion with
    | some v =>
      if pyListLt v [0, 5] then
        .ok { client with workarounds := ["use_http_head_for_no_result"] }
      else
        .ok client
    | none => .error .valueError
  | e => .error e

/-- C2: `connect` returns a `Client` only when `assert_version` accepted the
daemon-reported version, and whenever the gate rejects (mismatch or parse
error) the whole call fails with that error and no client is returned. -/
theorem connect_gates_client (daemonVersion : String) (session : Bool) :
    (∀ c, connect daemonVersion session = .ok c →
      assert_version daemonVersion = .ok) ∧
    (assert_version daemonVersion ≠ .ok →
      connect daemonVersion session = .error (assert_version daemonVersion)) := by
  constructor
  · intro c hc
    cases h : assert_version daemonVersion with
    | ok => rfl
    | versionMismatch v mn mx => simp [connect, h] at hc
    | valueError => simp [connect, h] at hc
  · intro hne
    cases h : assert_version daemonVersion with
    | ok => exact absurd h hne
    | versionMismatch v mn mx => simp [connect, h]
    | valueError => simp [connect, h]

/-- Witness for `connect_gates_client`: a daemon reporting `"0.7.0"` is
rejected and `connect` fails. -/
theorem connect_gates_client_witness :
    connect "0.7.0" false = .error (assert_version "0.7.0") :=
  (connect_gates_client "0.7.0" false).2 (by
    have h : assert_version "0.7.0" =
        .versionMismatch [0, 7, 0] [0, 4, 21] [0, 6, 0] := rfl
    simp [h])

/-! ## Claim theorems about session management -/

/-- C4: `Client.close` is idempotent — closing with no open session leaves
the client unchanged, and opening a session then closing twice equals closing
once. -/
theorem close_idempotent (c : Client) :
    (c.httpClient.sessionOpen = false → c.close = c) ∧
    c.enter.close.close = c.enter.close ∧
    c.close.close = c.close := by
  refine ⟨?_, rfl, rfl⟩
  intro h
  cases c with
  | mk http w =>
    cases http with
    | mk s =>
      simp only at h
      simp [Client.close, close_session, h]

/-- Witness for `close_idempotent` at a concrete client. -/
theorem close_idempotent_witness :
    Client.close { httpClient := { sessionOpen := false }, workarounds := [] } =
      { httpClient := { sessionOpen := false }, workarounds := [] } :=
  (close_idempotent { httpClient := { sessionOpen := false }, workarounds := [] }).1 rfl

/-- C5: `__exit__` calls `close` for every exception triple (including the
`None` case), so scoped acquisition releases the session on every exit path:
after a `with` block, whether the body returned normally or raised, the
session is closed. -/
theorem exit_releases_on_all_paths (c : Client)
    (exc_type exc_value traceback : Option String)
    {ε α : Type} (body : Client → Except ε α) :
    Client.exit c exc_type exc_value traceback = c.close ∧
    (withClient c body).2.httpClient.sessionOpen = false := by
  refine ⟨rfl, ?_⟩
  cases h : body c.enter with
  | ok a =>
    simp [withClient, h, Client.exit, Client.close, close_session]
  | error e =>
    simp [withClient, h, Client.exit, Client.close, close_session]

/-- C6: starting from any client, any sequence of `__enter__` and `close`
operations leaves at most one session open. -/
theorem at_most_one_session (c : Client) (ops : List SessionOp) :
    (ops.foldl Client.applyOp c).openSessionCount ≤ 1 := by
  cases h : (ops.foldl Client.applyOp c).httpClient.sessionOpen <;>
    simp [Client.openSessionCount, h]

/-! ## JSON values and their encoding

`Client.add_json` encodes a value with `encoding.Json().encode`, uploads the
bytes with `add_bytes`, and `Client.get_json` fetches the stored file and
decodes it as JSON.  The codec and the daemon live outside the given source
file and are modelled from the spec.  Modelling choices: JSON numbers are
integers (floating point is out of scope) and the encoder escapes exactly the
two characters that collide with the string syntax, `"` and `\`. -/

/-- Modelled from the spec: a JSON-serializable Python value — `None`,
booleans, integers, strings, lists and string-keyed dicts. -/
inductive JVal where
  | null : JVal
  | boolean (b : Bool) : JVal
  | num (n : Int) : JVal
  | str (s : String) : JVal
  | arr (xs : List JVal) : JVal
  | obj (kvs : List (String × JVal)) : JVal

/-- The opening-brace character, `\x7b`. -/
def lbraceChar : Char := Char.ofNat 123

/-- The closing-brace character, `\x7d`. -/
def rbraceChar : Char := Char.ofNat 125

/-- JSON string escaping of a single character. -/
def escChar (c : Char) : List Char :=
  if c = '"' then ['\\', '"']
  else if c = '\\' then ['\\', '\\']
  else [c]

/-- JSON string escaping of a character sequence. -/
def escList : List Char → List Char
  | [] => []
  | c :: cs => escChar c ++ escList cs

/-- The decimal digit character for `d`. -/
def digitChar (d : Nat) : Char := Char.ofNat (48 + d)

/-- Most-significant-first decimal digits of `n`, with enough fuel (`n` itself
suffices since `n / 10 < n`); empty for `n = 0`. -/
def natCharsAux : Nat → Nat → List Char
  | 0, _ => []
  | fuel + 1, n =>
    if n = 0 then [] else natCharsAux fuel (n / 10) ++ [digitChar (n % 10)]

/-- Decimal representation of a natural number. -/
def natChars (n : Nat) : List Char :=
  if n = 0 then ['0'] else natCharsAux n n

/-- Decimal representation of an integer. -/
def intChars (n : Int) : List Char :=
  if n < 0 then '-' :: natChars n.natAbs else natChars n.natAbs

/-- The serialized form of a JSON string (quotes plus escaped body). -/
def encStr (s : String) : List Char :=
  '"' :: escList s.data ++ ['"']

mutual

/-- Modelled from the spec: the JSON serializer (`encoding.Json().encode`),
producing the standard compact textual form. -/
def encVal : JVal → List Char
  | .null => ['n', 'u', 'l', 'l']
  | .boolean true => ['t', 'r', 'u', 'e']
  | .boolean false => ['f', 'a', 'l', 's', 'e']
  | .num n => intChars n
  | .str s => encStr s
  | .arr xs => '[' :: encArr xs ++ [']']
  | .obj kvs => lbraceChar :: encObj kvs ++ [rbraceChar]

/-- Comma-separated serialization of array elements. -/
def encArr : List JVal → List Char
  | [] => []
  | [x] => encVal x
  | x :: y :: rest => encVal x ++ ',' :: encArr (y :: rest)

/-- Comma-separated serialization of object members. -/
def encObj : List (String × JVal) → List Char
  | [] => []
  | [(k, v)] => encStr k ++ ':' :: encVal v
  | (k, v) :: p :: rest => encStr k ++ ':' :: encVal v ++ ',' :: encObj (p :: rest)

end

/-! ## The JSON parser -/

/-- Strip an expected literal character sequence off the input. -/
def stripChars : List Char → List Char → Option (List Char)
  | [], cs => some cs
  | _ :: _, [] => none
  | p :: ps, c :: cs => if c = p then stripChars ps cs else none

/-- Parse a non-empty run of decimal digits into a natural number. -/
def parseNatChars (cs : List Char) : Option (Nat × List Char) :=
  let ds := cs.takeWhile (·.isDigit)
  if ds = [] then none
  else some (ds.foldl (fun a c => 10 * a + (c.toNat - 48)) 0, cs.drop ds.length)

/-- Parse an optionally negated decimal integer. -/
def parseIntChars (cs : List Char) : Option (Int × List Char) :=
  match cs with
  | [] => none
  | c :: rest =>
    if c = '-' then (parseNatChars rest).map (fun p => (-(p.1 : Int), p.2))
    else (parseNatChars cs).map (fun p => ((p.1 : Int), p.2))

/-- Decode a character following a backslash in a JSON string. -/
def escDecode (c : Char) : Option Char :=
  if c = '"' then some '"'
  else if c = '\\' then some '\\'
  else none

/-- Parse the body of a JSON string one character at a time; the flag records
whether the previous character was an unprocessed backslash. -/
def parseStringBodyAux : Bool → List Char → Option (List Char × List Char)
  | _, [] => none
  | true, c :: cs =>
    match escDecode c with
    | none => none
    | some d =>
      match parseStringBodyAux false cs with
      | none => none
      | some (s, r) => some (d :: s, r)
  | false, c :: cs =>
    if c = '"' then some ([], cs)
    else if c = '\\' then parseStringBodyAux true cs
    else
      match parseStringBodyAux false cs with
      | none => none
      | some (s, r) => some (c :: s, r)

/-- Parse the body of a JSON string up to and including the closing quote. -/
def parseStringBody (cs : List Char) : Option (List Char × List Char) :=
  parseStringBodyAux false cs

mutual

/-- Modelled from the spec: the JSON decoder's value parser (recursive
descent, with a fuel argument bounding the recursion depth). -/
def parseVal : Nat → List Char → Option (JVal × List Char)
  | 0, _ => none
  | fuel + 1, cs =>
    match cs with
    | [] => none
    | c :: rest =>
      if c = 'n' then
        match stripChars ['u', 'l', 'l'] rest with
        | some r => some (.null, r)
        | none => none
      else if c = 't' then
        match stripChars ['r', 'u', 'e'] rest with
        | some r => some (.boolean true, r)
        | none => none
      else if c = 'f' then
        match stripChars ['a', 'l', 's', 'e'] rest with
        | some r => some (.boolean false, r)
        | none => none
      else if c = '"' then
        match parseStringBody rest with
        | some (s, r) => some (.str (String.mk s), r)
        | none => none
      else if c = '[' then
        match rest with
        | [] => none
        | c2 :: r2 =>
          if c2 = ']' then some (.arr [], r2)
          else
            match parseArrElems fuel rest with
            | some (xs, r) => some (.arr xs, r)
            | none => none
      else if c = lbraceChar then
        match rest with
        | [] => none
        | c2 :: r2 =>
          if c2 = rbraceChar then some (.obj [], r2)
          else
            match parseObjMembers fuel rest with
            | some (kvs, r) => some (.obj kvs, r)
            | none => none
      else
        match parseIntChars cs with
        | some (n, r) => some (.num n, r)
        | none => none

/-- Parse one or more comma-separated array elements and the closing
bracket. -/
def parseArrElems : Nat → List Char → Option (List JVal × List Char)
  | 0, _ => none
  | fuel + 1, cs =>
    match parseVal fuel cs with
    | none => none
    | some (v, r) =>
      match r with
      | [] => none
      | c :: r' =>
        if c = ',' then
          match parseArrElems fuel r' with
          | some (vs, rr) => some (v :: vs, rr)
          | none => none
        else if c = ']' then some ([v], r')
        else none

/-- Parse one or more comma-separated object members and the closing
brace. -/
def parseObjMembers : Nat → List Char → Option (List (String × JVal) × List Char)
  | 0, _ => none
  | fuel + 1, cs =>
    match cs with
    | [] => none
    | c :: rest =>
      if c = '"' then
        match parseStringBody rest with
        | none => none
        | some (k, r1) =>
          match r1 with
          | [] => none
          | c1 :: r2 =>
            if c1 = ':' then
              match parseVal fuel r2 with
              | none => none
              | some (v, r3) =>
                match r3 with
                | [] => none
                | c2 :: r4 =>
                  if c2 = ',' then
                    match parseObjMembers fuel r4 with
                    | some (kvs, rr) => some ((String.mk k, v) :: kvs, rr)
                    | none => none
                  else if c2 = rbraceChar then some ([(String.mk k, v)], r4)
                  else none
            else none
      else none

end

/-- Modelled from the spec: the JSON decoder — parse a complete value and
require the whole input to be consumed. -/
def json_loads (cs : List Char) : Option JVal :=
  match parseVal (cs.length + 1) cs with
  | some (v, []) => some v
  | _ => none

/-- Modelled from the spec: the JSON encoder entry point. -/
def json_dumps (v : JVal) : List Char := encVal v

/-! ## The daemon as a content store -/

/-- Modelled from the spec: the daemon's file store — "a remote
content-addressed storage daemon"; retrieving a stored CID returns exactly
the bytes that were uploaded. -/
structure Daemon where
  files : List (List Char)

/-- Modelled from the spec: storing a file returns its CID (here the store
index) and the updated daemon state. -/
def Daemon.add (d : Daemon) (content : List Char) : Nat × Daemon :=
  (d.files.length, { files := d.files ++ [content] })

/-- Modelled from the spec: `cat` retrieves the bytes stored under a CID. -/
def Daemon.cat (d : Daemon) (cid : Nat) : Option (List Char) :=
  d.files.get? cid

/-- Embedding of `Client.add_bytes` against the modelled daemon: upload the
bytes, return the reported hash. -/
def add_bytes (d : Daemon) (data : List Char) : Nat × Daemon :=
  d.add data

/-- Embedding of `Client.add_json`: `self.add_bytes(encoding.Json().encode(json_obj))`. -/
def add_json (d : Daemon) (v : JVal) : Nat × Daemon :=
  add_bytes d (json_dumps v)

/-- Embedding of `Client.get_json`: `self.cat(cid, decoder='json')` — fetch
the stored bytes and decode them as JSON. -/
def get_json (d : Daemon) (cid : Nat) : Option JVal :=
  match d.cat cid with
  | some cs => json_loads cs
  | none => none

example :
    json_loads (json_dumps (.arr [.num 1, .num (-23), .str "a\"b", .null,
      .obj [("k", .boolean true), ("l", .arr [])], .arr [.arr [.num 0]]])) =
    some (.arr [.num 1, .num (-23), .str "a\"b", .null,
      .obj [("k", .boolean true), ("l", .arr [])], .arr [.arr [.num 0]]]) := by
  rfl

/-! ## Round-trip lemmas -/

theorem stripChars_append (ps rest : List Char) :
    stripChars ps (ps ++ rest) = some rest := by
  induction ps with
  | nil => rfl
  | cons p ps ih => simp [stripChars, ih]

theorem digitChar_isDigit {d : Nat} (hd : d < 10) :
    (digitChar d).isDigit = true := by
  interval_cases d <;> rfl

theorem digitChar_toNat {d : Nat} (hd : d < 10) :
    (digitChar d).toNat = 48 + d := by
  interval_cases d <;> rfl

/-- A digit character is none of the characters that select another parser
branch. -/
theorem isDigit_branch_free {c : Char} (h : c.isDigit = true) :
    c ≠ 'n' ∧ c ≠ 't' ∧ c ≠ 'f' ∧ c ≠ '"' ∧ c ≠ '[' ∧ c ≠ lbraceChar ∧
      c ≠ '-' ∧ c ≠ ']' ∧ c ≠ rbraceChar ∧ c ≠ ',' ∧ c ≠ ':' := by
  refine ⟨?_, ?_, ?_, ?_, ?_, ?_, ?_, ?_, ?_, ?_, ?_⟩ <;>
    (rintro rfl; revert h; decide)

theorem natCharsAux_ne_nil (fuel n : Nat) (hn : n ≠ 0) (hfuel : n ≤ fuel) :
    natCharsAux fuel n ≠ [] := by
  cases fuel with
  | zero => omega
  | succ fuel =>
    simp [natCharsAux, hn]

theorem natChars_ne_nil (m : Nat) : natChars m ≠ [] := by
  unfold natChars
  by_cases h : m = 0
  · simp [h]
  · simp only [h, if_false]
    exact natCharsAux_ne_nil m m h le_rfl

theorem natCharsAux_all_digit (fuel : Nat) :
    ∀ n, ∀ c ∈ natCharsAux fuel n, c.isDigit = true := by
  induction fuel with
  | zero => intro n c hc; simp [natCharsAux] at hc
  | succ fuel ih =>
    intro n c hc
    by_cases hn : n = 0
    · simp [natCharsAux, hn] at hc
    · simp only [natCharsAux, hn, if_false, List.mem_append, List.mem_singleton] at hc
      rcases hc with hc | rfl
      · exact ih (n / 10) c hc
      · exact digitChar_isDigit (Nat.mod_lt n (by norm_num))

theorem natChars_all_digit (m : Nat) : ∀ c ∈ natChars m, c.isDigit = true := by
  unfold natChars
  by_cases h : m = 0
  · intro c hc
    simp [h] at hc
    subst hc
    rfl
  · simp only [h, if_false]
    exact natCharsAux_all_digit m m

theorem fold_natCharsAux (fuel : Nat) :
    ∀ n, n ≤ fuel →
      (natCharsAux fuel n).foldl (fun a c => 10 * a + (c.toNat - 48)) 0 = n := by
  induction fuel with
  | zero => intro n hn; interval_cases n; rfl
  | succ fuel ih =>
    intro n hn
    by_cases h : n = 0
    · simp [natCharsAux, h]
    · have hdiv : n / 10 ≤ fuel := by omega
      simp only [natCharsAux, h, if_false, List.foldl_append, ih (n / 10) hdiv,
        List.foldl_cons, List.foldl_nil, digitChar_toNat (Nat.mod_lt n (by norm_num))]
      omega

theorem fold_natChars (m : Nat) :
    (natChars m).foldl (fun a c => 10 * a + (c.toNat - 48)) 0 = m := by
  unfold natChars
  by_cases h : m = 0
  · simp [h]
  · simp only [h, if_false]
    exact fold_natCharsAux m m le_rfl

/-- The input that remains after a parsed token: its head, if any, is not a
digit (so that a preceding number token cannot absorb it). -/
def noDigitHead : List Char → Prop
  | [] => True
  | c :: _ => c.isDigit = false

theorem takeWhile_all_append (ds rest : List Char)
    (hds : ∀ c ∈ ds, c.isDigit = true) (hrest : noDigitHead rest) :
    (ds ++ rest).takeWhile (·.isDigit) = ds := by
  induction ds with
  | nil =>
    cases rest with
    | nil => rfl
    | cons c cs =>
      simp only [noDigitHead] at hrest
      simp [List.takeWhile_cons, hrest]
  | cons d ds ih =>
    have hd := hds d (List.mem_cons_self d ds)
    simp only [List.cons_append, List.takeWhile_cons, hd]
    simp [ih (fun x hx => hds x (List.mem_cons_of_mem d hx))]

theorem parseNatChars_natChars (m : Nat) (rest : List Char)
    (hrest : noDigitHead rest) :
    parseNatChars (natChars m ++ rest) = some (m, rest) := by
  unfold parseNatChars
  rw [takeWhile_all_append (natChars m) rest (natChars_all_digit m) hrest]
  rw [if_neg (natChars_ne_nil m), fold_natChars, List.drop_left]

theorem parseIntChars_intChars (n : Int) (rest : List Char)
    (hrest : noDigitHead rest) :
    parseIntChars (intChars n ++ rest) = some (n, rest) := by
  by_cases hn : n < 0
  · rw [show intChars n ++ rest = '-' :: (natChars n.natAbs ++ rest) by
      simp [intChars, if_pos hn]]
    simp only [parseIntChars, if_pos rfl,
      parseNatChars_natChars n.natAbs rest hrest, Option.map]
    have h1 : -((n.natAbs : Int)) = n := by omega
    rw [h1]
    simp
  · simp only [intChars, if_neg hn]
    obtain ⟨c, cs, hc⟩ := List.exists_cons_of_ne_nil (natChars_ne_nil n.natAbs)
    have hdig : c.isDigit = true := by
      apply natChars_all_digit n.natAbs
      rw [hc]
      exact List.mem_cons_self c cs
    have hne : c ≠ '-' := (isDigit_branch_free hdig).2.2.2.2.2.2.1
    rw [hc, List.cons_append, parseIntChars, if_neg hne, ← List.cons_append, ← hc,
      parseNatChars_natChars n.natAbs rest hrest]
    simp only [Option.map]
    have h1 : ((n.natAbs : Int)) = n := by omega
    rw [h1]

/-- The first character of any serialized value is never a closing delimiter
or separator. -/
theorem encVal_head (v : JVal) :
    ∃ c cs, encVal v = c :: cs ∧ c ≠ ']' ∧ c ≠ rbraceChar ∧ c ≠ ',' ∧ c ≠ ':' := by
  cases v with
  | null => exact ⟨'n', _, rfl, by decide, by decide, by decide, by decide⟩
  | boolean b =>
    cases b with
    | true => exact ⟨'t', _, rfl, by decide, by decide, by decide, by decide⟩
    | false => exact ⟨'f', _, rfl, by decide, by decide, by decide, by decide⟩
  | num n =>
    by_cases hn : n < 0
    · refine ⟨'-', natChars n.natAbs, ?_, by decide, by decide, by decide, by decide⟩
      simp [encVal, intChars, if_pos hn]
    · obtain ⟨c0, cs0, hc⟩ := List.exists_cons_of_ne_nil (natChars_ne_nil n.natAbs)
      have hdig : c0.isDigit = true := by
        apply natChars_all_digit n.natAbs
        rw [hc]
        exact List.mem_cons_self c0 cs0
      obtain ⟨_, _, _, _, _, _, _, h8, h9, h10, h11⟩ := isDigit_branch_free hdig
      exact ⟨c0, cs0, by simp [encVal, intChars, if_neg hn, hc], h8, h9, h10, h11⟩
  | str s =>
    exact ⟨'"', escList s.data ++ ['"'], rfl, by decide, by decide, by decide, by decide⟩
  | arr xs => exact ⟨'[', _, rfl, by decide, by decide, by decide, by decide⟩
  | obj kvs => exact ⟨lbraceChar, _, rfl, by decide, by decide, by decide, by decide⟩

/-- A non-empty serialized array body starts with its first element's
serialization. -/
theorem encArr_cons (x : JVal) (t : List JVal) :
    ∃ tl, encArr (x :: t) = encVal x ++ tl := by
  cases t with
  | nil => exact ⟨[], by simp [encArr]⟩
  | cons y t2 => exact ⟨',' :: encArr (y :: t2), rfl⟩

/-- A non-empty serialized object body starts with its first key's quoted
serialization, a colon and the first value. -/
theorem encObj_cons (k : String) (v : JVal) (t : List (String × JVal)) :
    ∃ tl, encObj ((k, v) :: t) =
      '"' :: (escList k.data ++ '"' :: ':' :: (encVal v ++ tl)) := by
  cases t with
  | nil => exact ⟨[], by simp [encObj, encStr]⟩
  | cons p t2 => exact ⟨',' :: encObj (p :: t2), by simp [encObj, encStr]⟩

theorem parseStringBody_escList (s rest : List Char) :
    parseStringBody (escList s ++ '"' :: rest) = some (s, rest) := by
  unfold parseStringBody
  induction s with
  | nil => simp [escList, parseStringBodyAux]
  | cons c cs ih =>
    by_cases h1 : c = '"'
    · subst h1
      simp [escList, escChar, parseStringBodyAux, escDecode, ih]
    · by_cases h2 : c = '\\'
      · subst h2
        simp [escList, escChar, parseStringBodyAux, escDecode, ih, h1]
      · simp [escList, escChar, parseStringBodyAux, h1, h2, ih]

/-- The opening brace selects none of the earlier parser branches. -/
theorem lbrace_facts :
    lbraceChar ≠ 'n' ∧ lbraceChar ≠ 't' ∧ lbraceChar ≠ 'f' ∧ lbraceChar ≠ '"' ∧
      lbraceChar ≠ '[' ∧ ('-' : Char) ≠ lbraceChar ∧ rbraceChar ≠ ']' := by
  refine ⟨?_, ?_, ?_, ?_, ?_, ?_, ?_⟩ <;> decide

/-- The parser inverts the serializer: with enough fuel, parsing a serialized
value (or a serialized non-empty element/member list followed by its closing
delimiter) succeeds and consumes exactly the serialization. -/
theorem parse_enc (fuel : Nat) :
    (∀ v rest, (encVal v).length < fuel → noDigitHead rest →
      parseVal fuel (encVal v ++ rest) = some (v, rest)) ∧
    (∀ xs rest, xs ≠ [] → (encArr xs).length + 1 < fuel →
      parseArrElems fuel (encArr xs ++ ']' :: rest) = some (xs, rest)) ∧
    (∀ kvs rest, kvs ≠ [] → (encObj kvs).length + 1 < fuel →
      parseObjMembers fuel (encObj kvs ++ rbraceChar :: rest) = some (kvs, rest)) := by
  induction fuel with
  | zero =>
    refine ⟨?_, ?_, ?_⟩
    · intro v rest h _
      exact absurd h (Nat.not_lt_zero _)
    · intro xs rest _ h
      exact absurd h (Nat.not_lt_zero _)
    · intro kvs rest _ h
      exact absurd h (Nat.not_lt_zero _)
  | succ fuel ih =>
    obtain ⟨IHv, IHa, IHo⟩ := ih
    refine ⟨?_, ?_, ?_⟩
    · intro v rest hsize hrest
      cases v with
      | null => simp [encVal, parseVal, stripChars]
      | boolean b => cases b <;> simp [encVal, parseVal, stripChars]
      | num n =>
        by_cases hn : n < 0
        · rw [show encVal (JVal.num n) ++ rest = '-' :: (natChars n.natAbs ++ rest) by
            simp [encVal, intChars, if_pos hn]]
          simp only [parseVal]
          rw [show ('-' :: (natChars n.natAbs ++ rest)) = intChars n ++ rest by
            simp [intChars, if_pos hn]]
          rw [parseIntChars_intChars n rest hrest]
          simp [lbrace_facts.2.2.2.2.2.1]
        · obtain ⟨c0, cs0, hc⟩ := List.exists_cons_of_ne_nil (natChars_ne_nil n.natAbs)
          have hdig : c0.isDigit = true := by
            apply natChars_all_digit n.natAbs
            rw [hc]
            exact List.mem_cons_self c0 cs0
          obtain ⟨d1, d2, d3, d4, d5, d6, _, _, _, _, _⟩ := isDigit_branch_free hdig
          rw [show encVal (JVal.num n) ++ rest = c0 :: (cs0 ++ rest) by
            simp [encVal, intChars, if_neg hn, hc]]
          simp only [parseVal, d1, d2, d3, d4, d5, d6, if_false, if_neg d1, if_neg d2,
            if_neg d3, if_neg d4, if_neg d5, if_neg d6]
          rw [show (c0 :: (cs0 ++ rest)) = intChars n ++ rest by
            simp [intChars, if_neg hn, hc]]
          rw [parseIntChars_intChars n rest hrest]
      | str s =>
        rw [show encVal (JVal.str s) ++ rest = '"' :: (escList s.data ++ '"' :: rest) by
          simp [encVal, encStr]]
        simp [parseVal, parseStringBody_escList]
      | arr xs =>
        cases xs with
        | nil => simp [encVal, encArr, parseVal]
        | cons x t =>
          obtain ⟨tl, htl⟩ := encArr_cons x t
          obtain ⟨c0, cs0, hc0, hne1, _, _, _⟩ := encVal_head x
          rw [show encVal (JVal.arr (x :: t)) ++ rest =
              '[' :: (c0 :: (cs0 ++ tl ++ (']' :: rest))) by
            simp [encVal, htl, hc0, List.append_assoc]]
          simp only [parseVal, hne1, if_neg hne1]
          rw [show (c0 :: (cs0 ++ tl ++ (']' :: rest))) =
              encArr (x :: t) ++ ']' :: rest by
            simp [htl, hc0, List.append_assoc]]
          have hbound : (encArr (x :: t)).length + 1 < fuel := by
            have : (encVal (JVal.arr (x :: t))).length =
                (encArr (x :: t)).length + 2 := by
              simp [encVal]
            omega
          rw [IHa (x :: t) rest (List.cons_ne_nil x t) hbound]
          simp
      | obj kvs =>
        obtain ⟨hl1, hl2, hl3, hl4, hl5, _, _⟩ := lbrace_facts
        cases kvs with
        | nil => simp [encVal, encObj, parseVal, hl1, hl2, hl3, hl4, hl5]
        | cons kv t =>
          obtain ⟨k, v0⟩ := kv
          obtain ⟨tl, htl⟩ := encObj_cons k v0 t
          have hq : ('"' : Char) ≠ rbraceChar := by decide
          have hbound : (encObj ((k, v0) :: t)).length + 1 < fuel := by
            have : (encVal (JVal.obj ((k, v0) :: t))).length =
                (encObj ((k, v0) :: t)).length + 2 := by
              simp [encVal]
            omega
          have hIHo := IHo ((k, v0) :: t) rest (List.cons_ne_nil _ t) hbound
          rw [htl] at hIHo
          simp only [List.cons_append, List.append_assoc] at hIHo
          rw [show encVal (JVal.obj ((k, v0) :: t)) ++ rest =
              lbraceChar :: ('"' :: (escList k.data ++ '"' :: ':' ::
                (encVal v0 ++ tl)) ++ (rbraceChar :: rest)) by
            simp [encVal, htl, List.append_assoc]]
          simp only [parseVal, List.cons_append, List.append_assoc, if_neg hq,
            if_neg hl1, if_neg hl2, if_neg hl3, if_neg hl4, if_neg hl5, reduceIte]
          rw [hIHo]
    · intro xs rest hne hsize
      cases xs with
      | nil => exact absurd rfl hne
      | cons x t =>
        cases t with
        | nil =>
          rw [show encArr [x] ++ ']' :: rest = encVal x ++ ']' :: rest by
            simp [encArr]]
          simp only [parseArrElems]
          have hb : (encVal x).length < fuel := by
            simp only [encArr] at hsize
            omega
          rw [IHv x (']' :: rest) hb rfl]
          simp
        | cons y t2 =>
          rw [show encArr (x :: y :: t2) ++ ']' :: rest =
              encVal x ++ ',' :: (encArr (y :: t2) ++ ']' :: rest) by
            simp [encArr, List.append_assoc]]
          simp only [parseArrElems]
          have hlen : (encArr (x :: y :: t2)).length =
              (encVal x).length + 1 + (encArr (y :: t2)).length := by
            simp [encArr]
            omega
          have hb1 : (encVal x).length < fuel := by omega
          have hb2 : (encArr (y :: t2)).length + 1 < fuel := by omega
          rw [IHv x (',' :: (encArr (y :: t2) ++ ']' :: rest)) hb1 rfl]
          simp only []
          rw [IHa (y :: t2) rest (List.cons_ne_nil y t2) hb2]
          simp
    · intro kvs rest hne hsize
      cases kvs with
      | nil => exact absurd rfl hne
      | cons kv t =>
        obtain ⟨k, v0⟩ := kv
        have hrc1 : rbraceChar ≠ ',' := by decide
        have hrc2 : (',' : Char) ≠ rbraceChar := by decide
        cases t with
        | nil =>
          rw [show encObj [(k, v0)] ++ rbraceChar :: rest =
              '"' :: (escList k.data ++ '"' ::
                (':' :: (encVal v0 ++ rbraceChar :: rest))) by
            simp [encObj, encStr, List.append_assoc]]
          have hb : (encVal v0).length < fuel := by
            simp [encObj, encStr] at hsize
            omega
          have hnd : noDigitHead (rbraceChar :: rest) := by
            show rbraceChar.isDigit = false
            decide
          simp only [parseObjMembers, reduceIte,
            parseStringBody_escList k.data (':' :: (encVal v0 ++ rbraceChar :: rest))]
          rw [IHv v0 (rbraceChar :: rest) hb hnd]
          simp [hrc1]
        | cons p t2 =>
          rw [show encObj ((k, v0) :: p :: t2) ++ rbraceChar :: rest =
              '"' :: (escList k.data ++ '"' ::
                (':' :: (encVal v0 ++ ',' :: (encObj (p :: t2) ++ rbraceChar :: rest)))) by
            simp [encObj, encStr, List.append_assoc]]
          have hlen : (encObj ((k, v0) :: p :: t2)).length =
              (encStr k).length + 1 + (encVal v0).length + 1 +
                (encObj (p :: t2)).length := by
            simp [encObj, encStr]
            omega
          have hkl : (encStr k).length = (escList k.data).length + 2 := by
            simp [encStr]
          have hb1 : (encVal v0).length < fuel := by omega
          have hb2 : (encObj (p :: t2)).length + 1 < fuel := by omega
          simp only [parseObjMembers, reduceIte, parseStringBody_escList k.data
            (':' :: (encVal v0 ++ ',' :: (encObj (p :: t2) ++ rbraceChar :: rest)))]
          rw [IHv v0 (',' :: (encObj (p :: t2) ++ rbraceChar :: rest)) hb1 rfl]
          simp only [reduceIte]
          rw [IHo (p :: t2) rest (List.cons_ne_nil p t2) hb2]

/-- Decoding inverts encoding for every JSON value. -/
theorem json_loads_dumps (v : JVal) : json_loads (json_dumps v) = some v := by
  unfold json_loads json_dumps
  have h := (parse_enc ((encVal v).length + 1)).1 v [] (by omega) trivial
  rw [List.append_nil] at h
  rw [h]

/-- C7: storing a JSON-serializable value with `add_json` and then loading
the returned CID with `get_json` yields the value again: the JSON encoding
of the value round-trips through the daemon's byte store and the JSON
decoder. -/
theorem add_json_get_json_roundtrip (d : Daemon) (v : JVal) :
    get_json (add_json d v).2 (add_json d v).1 = some v ∧
    json_loads (json_dumps v) = some v := by
  refine ⟨?_, json_loads_dumps v⟩
  unfold get_json add_json add_bytes Daemon.add Daemon.cat
  simp [List.getElem?_concat_length, json_loads_dumps v]

end IpfsHttpClient
